import Mathlib

/-!
Verification of the relational data-access layer of this repository
(`src/shared/sqlalchemy_connector.py`, class `SQLAlchemyConnector`).

The Python source is shallowly embedded: each Lean definition mirrors one
method (or the relevant slice of one method) of the source, translated
statement by statement.  Machine-level concerns (live database connections,
SQL parsing) are modelled by explicit data: a table is a list of rows, a row
is an association list from column name to an optional string value (`none`
models SQL NULL), and catalog metadata is carried in explicit structures.
-/

namespace SqlConn

/-! ## Chunked writer (`SQLAlchemyConnector.write` / `__write_in_chunks`) -/

/-- Model of the Python slice `data[n*cs:(n+1)*cs]` used by
`__write_in_chunks`. -/
def chunkSlice (data : List α) (cs n : Nat) : List α :=
  (data.drop (n * cs)).take cs

/-- Embedding of `SQLAlchemyConnector.__write_in_chunks`: iterate `n` over
`range(len(data) // chunk_size + 1)`, skip empty slices (`if not chunk_elems:
continue`), and write each remaining slice as a separate `WriteMode.APPEND`
call with `do_commit=True`.  The result is the list of committed chunks in
order. -/
def write_in_chunks (data : List α) (cs : Nat) : List (List α) :=
  ((List.range (data.length / cs + 1)).map (chunkSlice data cs)).filter
    (fun c => !c.isEmpty)

/-- Embedding of the append-path dispatch in `SQLAlchemyConnector.write`:
`if len(data) > 10000: self.__write_in_chunks(data, 10000, ...)`, otherwise a
single insert of the whole batch. -/
def writeAppendPlan (data : List α) : List (List α) :=
  if data.length > 10000 then write_in_chunks data 10000 else [data]

theorem chunkSlice_length (data : List α) (cs n : Nat) :
    (chunkSlice data cs n).length = min cs (data.length - n * cs) := by
  simp [chunkSlice]

theorem filter_map_lengths (f : Nat → List α) (ns : List Nat) :
    (((ns.map f).filter (fun c => !c.isEmpty)).map List.length)
      = (ns.map (fun n => (f n).length)).filter (fun k => k != 0) := by
  induction ns with
  | nil => rfl
  | cons n rest ih =>
    by_cases h : (f n).isEmpty
    · have hlen : (f n).length = 0 := by
        simpa [List.isEmpty_iff, List.length_eq_zero] using h
      simp [h, hlen, ih]
    · have hlen : (f n).length ≠ 0 := by
        simpa [List.isEmpty_iff, List.length_eq_zero] using h
      simp [h, hlen, ih]

theorem flatten_filter_nonempty (l : List (List α)) :
    (l.filter (fun c => !c.isEmpty)).flatten = l.flatten := by
  induction l with
  | nil => rfl
  | cons c rest ih =>
    by_cases h : c.isEmpty
    · have : c = [] := by simpa [List.isEmpty_iff] using h
      simp [h, this, ih]
    · simp [h, ih]

theorem flatten_range_chunkSlice (cs : Nat) :
    ∀ (k : Nat) (l : List α), l.length ≤ k * cs →
      ((List.range k).map (chunkSlice l cs)).flatten = l := by
  intro k
  induction k with
  | zero =>
    intro l hl
    simp at hl
    simp [hl]
  | succ k ih =>
    intro l hl
    rw [List.range_succ_eq_map]
    have hshift : ∀ n : Nat, chunkSlice l cs (n + 1) = chunkSlice (l.drop cs) cs n := by
      intro n
      simp [chunkSlice, List.drop_drop, Nat.succ_mul, Nat.add_comm]
    have hmap : (List.map (chunkSlice l cs) (List.map Nat.succ (List.range k)))
        = (List.range k).map (chunkSlice (l.drop cs) cs) := by
      rw [List.map_map]
      exact List.map_congr_left (fun n _ => hshift n)
    rw [List.map_cons, hmap, List.flatten_cons]
    have hdrop : (l.drop cs).length ≤ k * cs := by
      have := List.length_drop cs l
      rw [this]
      have : (k + 1) * cs = k * cs + cs := by ring
      omega
    rw [ih (l.drop cs) hdrop]
    simp [chunkSlice]

theorem write_in_chunks_lengths (data : List α) (cs : Nat) :
    (write_in_chunks data cs).map List.length
      = ((List.range (data.length / cs + 1)).map
          (fun n => min cs (data.length - n * cs))).filter (fun k => k != 0) := by
  rw [write_in_chunks, filter_map_lengths]
  congr 1
  exact List.map_congr_left (fun n _ => chunkSlice_length data cs n)

theorem write_in_chunks_flatten (data : List α) (cs : Nat) (hcs : 0 < cs) :
    (write_in_chunks data cs).flatten = data := by
  rw [write_in_chunks, flatten_filter_nonempty]
  apply flatten_range_chunkSlice
  have h1 := Nat.div_add_mod data.length cs
  have h2 := Nat.mod_lt data.length hcs
  calc data.length = cs * (data.length / cs) + data.length % cs := h1.symm
    _ ≤ cs * (data.length / cs) + cs := by omega
    _ = (data.length / cs + 1) * cs := by ring

/-- C5: for every Append of a batch whose record count exceeds the fixed
10,000-record threshold, the batch is split into chunks of at most 10,000
records (whose concatenation is the original batch), each written as a
separate Append call committed independently; appending 25,000 records
produces exactly 3 committed chunks of sizes 10,000, 10,000 and 5,000. -/
theorem write_append_chunking (α : Type) :
    (∀ (data : List α), 10000 < data.length →
        (∀ c ∈ writeAppendPlan data, c.length ≤ 10000) ∧
        (writeAppendPlan data).flatten = data) ∧
    (∀ (data : List α), data.length = 25000 →
        (writeAppendPlan data).map List.length = [10000, 10000, 5000] ∧
        (writeAppendPlan data).length = 3) := by
  constructor
  · intro data hlen
    constructor
    · intro c hc
      rw [writeAppendPlan, if_pos hlen] at hc
      rw [write_in_chunks] at hc
      rcases List.mem_filter.mp hc with ⟨hmem, _⟩
      rcases List.mem_map.mp hmem with ⟨n, _, rfl⟩
      rw [chunkSlice_length]
      exact Nat.min_le_left _ _
    · rw [writeAppendPlan, if_pos hlen]
      exact write_in_chunks_flatten data 10000 (by norm_num)
  · intro data hlen
    have h25 : 10000 < data.length := by omega
    have hmap : (writeAppendPlan data).map List.length = [10000, 10000, 5000] := by
      rw [writeAppendPlan, if_pos h25, write_in_chunks_lengths, hlen]
      decide
    refine ⟨hmap, ?_⟩
    have := congrArg List.length hmap
    simpa using this

theorem write_append_chunking_witness :
    (10000 < (List.replicate 25000 ()).length →
        (∀ c ∈ writeAppendPlan (List.replicate 25000 ()), c.length ≤ 10000)) ∧
    (writeAppendPlan (List.replicate 25000 ())).map List.length
        = [10000, 10000, 5000] := by
  have h := write_append_chunking Unit
  have hlen : (List.replicate 25000 ()).length = 25000 :=
    List.length_replicate ..
  exact ⟨fun hgt => (h.1 (List.replicate 25000 ()) hgt).1,
         (h.2 (List.replicate 25000 ()) hlen).1⟩

/-! ## Literal wrapper (`SQLAlchemyConnector.wrap_literal`, no-type-info path) -/

/-- Runtime shapes of the Python values passed to `wrap_literal`.  A
`datetime.datetime` carries its date and time fields; `pyTimedelta` carries
its `str(...)` rendering; a `decimal.Decimal` with value `num / den`
(`den > 0`) is carried unreduced so that truncation is directly computable. -/
inductive PyVal where
  | pyDate (y m d : Nat)
  | pyDatetime (y m d hh mm ss : Nat)
  | pyTime (hh mm ss : Nat)
  | pyTimedelta (s : String)
  | pyDecimal (num : Int) (den : Nat)
  | pyStr (s : String)
  | pyInt (n : Int)
  | pyNone
  deriving DecidableEq

/-- Python `isinstance(val, datetime.date)`: `datetime.datetime` is a
subclass of `datetime.date`, so both constructors satisfy it. -/
def isinstDate : PyVal → Bool
  | .pyDate _ _ _ => true
  | .pyDatetime _ _ _ _ _ _ => true
  | _ => false

def pad2 (n : Nat) : String :=
  if n < 10 then "0" ++ toString n else toString n

def pad4 (n : Nat) : String :=
  if n < 10 then "000" ++ toString n
  else if n < 100 then "00" ++ toString n
  else if n < 1000 then "0" ++ toString n
  else toString n

/-- Python `val.strftime("%Y-%m-%d")`. -/
def strftimeDate (y m d : Nat) : String :=
  pad4 y ++ "-" ++ pad2 m ++ "-" ++ pad2 d

/-- Python `val.strftime("%Y-%m-%d %H:%M:%S")`. -/
def strftimeDatetime (y m d hh mm ss : Nat) : String :=
  strftimeDate y m d ++ " " ++ pad2 hh ++ ":" ++ pad2 mm ++ ":" ++ pad2 ss

/-- Python `val.strftime("%H:%M:%S")`. -/
def strftimeTime (hh mm ss : Nat) : String :=
  pad2 hh ++ ":" ++ pad2 mm ++ ":" ++ pad2 ss

/-- Python `int(Decimal)`: truncation toward zero (`Int.tdiv` with a positive
denominator truncates toward zero, matching CPython). -/
def pyTrunc (num : Int) (den : Nat) : Int :=
  num.tdiv (den : Int)

/-- Model of Python `s.startswith("'")`: the first character, if any, is a
single quote. -/
def startsWithQuote (s : String) : Bool :=
  s.data.take 1 == "'".data

/-- Model of Python `s.endswith("'")`: the last character, if any, is a
single quote. -/
def endsWithQuote (s : String) : Bool :=
  s.data.reverse.take 1 == "'".data

/-- First stage of `wrap_literal`: the isinstance coercion chain.  The source
tests `isinstance(val, date)` first; because `datetime` subclasses `date`,
a datetime value is captured by that branch and formatted `"%Y-%m-%d"`, and
the dedicated `isinstance(val, datetime)` branch
(`val.strftime("%Y-%m-%d %H:%M:%S")`) is unreachable for datetime instances.
The trailing `elif not isinstance(val, str) and val is not None` branch
round-trips the value through `str` and back through its original type,
which is the identity for ints. -/
def wrapCoerce (v : PyVal) : PyVal :=
  if isinstDate v then
    match v with
    | .pyDate y m d => .pyStr (strftimeDate y m d)
    | .pyDatetime y m d _ _ _ => .pyStr (strftimeDate y m d)
    | w => w
  else
    match v with
    | .pyDatetime y m d hh mm ss => .pyStr (strftimeDatetime y m d hh mm ss)
    | .pyTime hh mm ss => .pyStr (strftimeTime hh mm ss)
    | .pyTimedelta s => .pyStr s
    | .pyDecimal num den => .pyInt (pyTrunc num den)
    | w => w

/-- Second stage of `wrap_literal` when no `type_name`/`backend` is given:
a string is quoted unless it already starts and ends with a quote
(`elif isinstance(val, str) and not val.startswith("'") and not
val.endswith("'")`), anything else falls through to `return f"{val}"`. -/
def wrapPlain (v : PyVal) : String :=
  match v with
  | .pyStr s =>
      if !startsWithQuote s && !endsWithQuote s then "'" ++ s ++ "'" else s
  | .pyInt n => toString n
  | .pyDate y m d => strftimeDate y m d
  | .pyDatetime y m d hh mm ss => strftimeDatetime y m d hh mm ss
  | .pyTime hh mm ss => strftimeTime hh mm ss
  | .pyTimedelta s => s
  | .pyDecimal num den => toString (pyTrunc num den)
  | .pyNone => "None"

/-- Embedding of `SQLAlchemyConnector.wrap_literal` with `type_name`,
`backend` and `dialect` omitted (the value-shape path of the claim). -/
def wrap_literal (v : PyVal) : String :=
  wrapPlain (wrapCoerce v)

/-- C6 (code bug): without type information the wrapper handles date, time
and Decimal values as the spec states, but a datetime value is formatted
as a date only: `isinstance(val, date)` matches datetimes first (datetime
subclasses date), so `wrap_literal(datetime(2024,1,2,3,4,5))` evaluates to
`'2024-01-02'` instead of the documented `'2024-01-02 03:04:05'`; the
dedicated datetime branch of the source is dead code for datetime inputs. -/
theorem wrap_literal_datetime_bug :
    wrap_literal (.pyDatetime 2024 1 2 3 4 5) = "'2024-01-02'" ∧
    wrap_literal (.pyDatetime 2024 1 2 3 4 5) ≠ "'2024-01-02 03:04:05'" ∧
    wrap_literal (.pyDate 2024 1 2) = "'2024-01-02'" ∧
    wrap_literal (.pyTime 3 4 5) = "'03:04:05'" ∧
    wrap_literal (.pyDecimal 37 10) = "3" ∧
    wrap_literal (.pyDecimal (-37) 10) = "-3" := by
  refine ⟨by decide, by decide, by decide, by decide, by decide, by decide⟩

/-! ## Validation prefix of `SQLAlchemyConnector.write` -/

/-- Observable outcome of the validation prefix of `write` (source order:
collect `errs` about the data container type, the table name and the write
mode, raising `ValueError` if any; then `if len(data) == 0: log and return`;
then dispatch to `upsert` for `WriteMode.UPSERT`; otherwise continue into
statement building). -/
inductive WriteOutcome where
  | valueError
  | earlyReturn
  | dispatchUpsert
  | proceed
  deriving DecidableEq

/-- Embedding of the validation prefix of `SQLAlchemyConnector.write`:
`tableExists` abstracts `self.table_exists(table_name)` and `modeValid`
abstracts the `WriteMode` conversion check; both failures are collected in
`errs` and raised before the empty-data check. -/
def writeEntry (dataLen : Nat) (tableExists modeValid modeIsUpsert : Bool) :
    WriteOutcome :=
  if !tableExists || !modeValid then .valueError
  else if dataLen = 0 then .earlyReturn
  else if modeIsUpsert then .dispatchUpsert
  else .proceed

/-- C7 counterexample: a `write` call with an empty data set and otherwise
valid arguments is not rejected as a validation error; the source logs
"No data provided. Exiting." and returns normally. -/
theorem write_empty_data_counterexample :
    writeEntry 0 true true false = .earlyReturn ∧
    writeEntry 0 true true false ≠ .valueError := by
  exact ⟨rfl, by decide⟩

/-- C7 amended: for every call to `write` with an empty data set and a valid
existing table and mode, the call returns early with only a log message —
no exception is raised and no SQL statement is built or executed (the early
return precedes all statement construction); the `ValueError` path is taken
only for an invalid table or mode. -/
theorem write_empty_data_amended (modeIsUpsert : Bool) :
    writeEntry 0 true true modeIsUpsert = .earlyReturn ∧
    (∀ tableExists modeValid : Bool,
      writeEntry 0 tableExists modeValid modeIsUpsert = .earlyReturn ∨
      writeEntry 0 tableExists modeValid modeIsUpsert = .valueError) := by
  constructor
  · rfl
  · intro tableExists modeValid
    cases tableExists <;> cases modeValid <;> simp [writeEntry]

/-! ## Relationship graph cache (`SQLAlchemyConnector.setup_fkey_relationships`) -/

/-- Row returned by the foreign-key catalog query: parent table, ordered
parent key columns, child table, ordered child (foreign-key) columns. -/
structure FKRow where
  parentTable : String
  parentKeys : List String
  childTable : String
  childKeys : List String
  deriving DecidableEq

/-- Update an association list at a key, mirroring Python dict semantics:
an existing key is updated in place, a missing key is appended (insertion
order). -/
def alUpdate [DecidableEq κ] (k : κ) (f : Option ν → ν) :
    List (κ × ν) → List (κ × ν)
  | [] => [(k, f none)]
  | (k2, v2) :: rest =>
      if k2 = k then (k2, f (some v2)) :: rest else (k2, v2) :: alUpdate k f rest

/-- Python `set.add` followed by `convert_sets_to_lists`: membership-based
insertion (the claims only depend on membership, not set iteration order). -/
def setAdd [DecidableEq α] (x : α) (l : List α) : List α :=
  if x ∈ l then l else l ++ [x]

/-- Nested relationship map built by `setup_fkey_relationships`:
parent table → child table → ordered parent-key tuple → list of ordered
child-key tuples. -/
abbrev FKGraph := List (String × List (String × List (List String × List (List String))))

set_option synthInstance.maxSize 512 in
instance : DecidableEq (String × List (String × List (List String × List (List String)))) :=
  inferInstance

/-- Loop body of `setup_fkey_relationships`: create the missing nesting
levels, then add the child-key tuple to the set for the parent-key tuple. -/
def insertRel (g : FKGraph) (r : FKRow) : FKGraph :=
  alUpdate r.parentTable (fun mo =>
    alUpdate r.childTable (fun co =>
      alUpdate r.parentKeys (fun fo => setAdd r.childKeys (fo.getD [])) (co.getD []))
      (mo.getD [])) g

/-- Full graph construction from the catalog rows. -/
def buildGraph (catalog : List FKRow) : FKGraph :=
  catalog.foldl insertRel []

/-- Connection-level state relevant to the cache claim: the cached
relationship map and a count of catalog round trips. -/
structure ConnState where
  relationships : FKGraph
  catalogQueries : Nat
  deriving DecidableEq

/-- Embedding of `SQLAlchemyConnector.setup_fkey_relationships`: the guard
`if self.relationships and not overwrite: return` uses Python dict
truthiness (an empty dict is falsy), otherwise the backend catalog is
queried (counted in `catalogQueries`) and the nested map rebuilt. -/
def setup_fkey_relationships (catalog : List FKRow) (overwrite : Bool)
    (st : ConnState) : ConnState :=
  if !st.relationships.isEmpty && !overwrite then st
  else { relationships := buildGraph catalog
         catalogQueries := st.catalogQueries + 1 }

/-- C8 counterexample: on a backend whose catalog holds no qualifying
foreign keys, the built graph is the empty dict, which is falsy, so a second
call without the overwrite flag re-queries the backend catalog (two catalog
round trips) instead of being a no-op. -/
theorem fkey_cache_empty_requery_counterexample :
    (setup_fkey_relationships [] false
        (setup_fkey_relationships [] false ⟨[], 0⟩)).catalogQueries = 2 ∧
    setup_fkey_relationships [] false (setup_fkey_relationships [] false ⟨[], 0⟩)
      ≠ setup_fkey_relationships [] false ⟨[], 0⟩ := by
  exact ⟨rfl, by decide⟩

/-- C8 amended: once the relationship graph has been built and is non-empty,
calling `setup_fkey_relationships` again without the overwrite flag is a
no-op — the same edge set is kept and the backend catalog is not queried
again — until an explicit overwrite call replaces the cache; the dict
truthiness guard makes an empty built graph rebuild (re-query) on every
call. -/
theorem fkey_cache_amended (catalog : List FKRow) (st0 : ConnState)
    (hne : buildGraph catalog ≠ []) :
    (setup_fkey_relationships catalog false
        (setup_fkey_relationships catalog false st0)
      = setup_fkey_relationships catalog false st0) ∧
    (setup_fkey_relationships catalog true st0).relationships
      = buildGraph catalog := by
  constructor
  · by_cases h0 : st0.relationships.isEmpty
    · have h1 : setup_fkey_relationships catalog false st0
          = { relationships := buildGraph catalog
              catalogQueries := st0.catalogQueries + 1 } := by
        simp [setup_fkey_relationships, h0]
      rw [h1]
      have hne2 : (buildGraph catalog).isEmpty = false := by
        simpa [List.isEmpty_iff] using hne
      simp [setup_fkey_relationships, hne2]
    · have h0f : st0.relationships.isEmpty = false := by
        simpa using h0
      simp [setup_fkey_relationships, h0f]
  · simp [setup_fkey_relationships]

theorem fkey_cache_amended_witness :
    buildGraph [⟨"public.parent", ["code"], "public.child", ["parent_code"]⟩] ≠ [] ∧
    (setup_fkey_relationships
        [⟨"public.parent", ["code"], "public.child", ["parent_code"]⟩] false
        (setup_fkey_relationships
          [⟨"public.parent", ["code"], "public.child", ["parent_code"]⟩] false ⟨[], 0⟩)
      = setup_fkey_relationships
          [⟨"public.parent", ["code"], "public.child", ["parent_code"]⟩] false ⟨[], 0⟩) :=
  ⟨by decide,
   (fkey_cache_amended
      [⟨"public.parent", ["code"], "public.child", ["parent_code"]⟩] ⟨[], 0⟩
      (by decide)).1⟩

/-! ## Staging table lifecycle (`SQLAlchemyConnector.merge_data`) -/

/-- Observable state of one `merge_data` run: whether the staging table
still exists at the end, whether the MERGE completed, and whether an
exception propagated to the caller. -/
structure MergeRun where
  stagingExists : Bool
  merged : Bool
  raised : Bool
  deriving DecidableEq

/-- Embedding of `SQLAlchemyConnector.merge_data`: the source runs
`create_staging_table`, then `merge_tables`, then `drop_table` in straight
sequence with no try/finally, so an exception raised by the MERGE statement
(`mergeFails`) propagates before `drop_table` is reached. -/
def merge_data (mergeFails : Bool) : MergeRun :=
  -- staging_table_name = self.create_staging_table(table_name, data, session)
  let afterCreate : MergeRun := ⟨true, false, false⟩
  -- self.merge_tables(staging_table_name, table_name, ...)
  if mergeFails then { afterCreate with raised := true }
  -- self.drop_table(staging_table_name)
  else { stagingExists := false, merged := true, raised := false }

/-- C4 counterexample: when the MERGE step raises, `merge_data` propagates
the exception with the staging table still in place — the drop is not
unconditional. -/
theorem staging_table_leak_counterexample :
    (merge_data true).stagingExists = true ∧ (merge_data true).raised = true := by
  exact ⟨rfl, rfl⟩

/-- C4 amended: the staging table created for a merge-path upsert is dropped
when the MERGE succeeds; when the MERGE raises, the exception propagates and
the staging table is left behind (its removal then relies on the
`DROP TABLE IF EXISTS` at the start of the next `create_staging_table` for
the same target). -/
theorem staging_table_drop_amended :
    ∀ mergeFails : Bool,
      merge_data mergeFails
        = if mergeFails then ⟨true, false, true⟩ else ⟨false, true, false⟩ := by
  intro mergeFails
  cases mergeFails <;> rfl

/-! ## Session finalization (`__finalize_transaction` and callers) -/

/-- Commit/close effects observed on one SQLAlchemy session. -/
structure SessTrace where
  commits : Nat
  closed : Bool
  deriving DecidableEq

/-- Embedding of `SQLAlchemyConnector.__finalize_transaction`. -/
def finalize_transaction (t : SessTrace) (isSub doCommit : Bool) : SessTrace :=
  if doCommit && !isSub then { commits := t.commits + 1, closed := true }
  else if doCommit then { t with commits := t.commits + 1 }
  else if !isSub then { commits := t.commits + 1, closed := true }
  else t

/-- Session effects of the non-upsert path of `write` on the session it was
handed: batches over 10,000 records go through `__write_in_chunks`, whose
inner `write(chunk, ..., do_commit=True)` calls run
`__finalize_transaction(session, is_sub=True, do_commit=True)` — one commit
per nonempty chunk — after which `__write_in_chunks` closes the session;
smaller batches execute the insert and run `__finalize_transaction` once. -/
def write_plain_trace (data : List α) (isSub doCommit : Bool) (t : SessTrace) :
    SessTrace :=
  if data.length > 10000 then
    { commits := t.commits + (write_in_chunks data 10000).length, closed := true }
  else finalize_transaction t isSub doCommit

/-- Session effects of `SQLAlchemyConnector.upsert` on the session it was
handed.  `mergePath` abstracts the merge/delete-then-insert decision.  On
the merge path, `merge_data` passes the caller's session into
`create_staging_table`, which executes the DDL batch `BEGIN; LOCK TABLE
...; CREATE TABLE ... (LIKE ... INCLUDING ALL); COMMIT;` on that session —
the raw SQL COMMIT ends the session's open transaction (one commit on the
caller's session); the staging data load then runs on a separate internal
session, the MERGE executes without committing, and `merge_tables` ends
with `__finalize_transaction(session, is_sub=True, do_commit)`.  On the
delete path, the DELETE executes without committing and the data is
appended via `write(data, ..., session=session, do_commit)`.  Both paths
end with upsert's own `__finalize_transaction`. -/
def upsert_trace (data : List α) (isSub doCommit mergePath : Bool)
    (t : SessTrace) : SessTrace :=
  if data.isEmpty then t
  else
    let t1 :=
      if mergePath then
        finalize_transaction { t with commits := t.commits + 1 } true doCommit
      else write_plain_trace data true doCommit t
    finalize_transaction t1 isSub doCommit

/-- Write modes of `objects.database.enums.WriteMode` used by `write`. -/
inductive WMode where
  | append
  | overwrite
  | upsert
  | ifNotExists
  deriving DecidableEq

/-- Session effects of `SQLAlchemyConnector.write` on a caller-supplied
session (`is_sub=True` when a session is passed). -/
def write_trace (data : List α) (mode : WMode) (isSub doCommit mergePath : Bool)
    (t : SessTrace) : SessTrace :=
  if data.isEmpty then t
  else if mode = WMode.upsert then upsert_trace data isSub doCommit mergePath t
  else write_plain_trace data isSub doCommit t

theorem finalize_noop (t : SessTrace) : finalize_transaction t true false = t := by
  rfl

/-- Number of committed chunks for a 10,001-record batch: two (10,000 and 1). -/
theorem write_in_chunks_length_10001 :
    (write_in_chunks (List.replicate 10001 (() : Unit)) 10000).length = 2 := by
  have h := write_in_chunks_lengths (List.replicate 10001 (() : Unit)) 10000
  have hlen : (List.replicate 10001 (() : Unit)).length = 10001 :=
    List.length_replicate ..
  rw [hlen] at h
  have := congrArg List.length h
  rw [List.length_map] at this
  rw [this]
  decide

/-- Behaviour of `write_trace` on over-threshold non-upsert batches. -/
theorem write_trace_chunked (data : List α) (hlen : 10000 < data.length)
    (mode : WMode) (hm : mode ≠ WMode.upsert) (isSub doCommit mergePath : Bool)
    (t : SessTrace) :
    write_trace data mode isSub doCommit mergePath t
      = { commits := t.commits + (write_in_chunks data 10000).length
          closed := true } := by
  have hne : data ≠ [] := by
    intro h
    rw [h] at hlen
    simp at hlen
  have hE : data.isEmpty = false := by
    cases data with
    | nil => exact absurd rfl hne
    | cons a l => rfl
  simp [write_trace, hE, hm, write_plain_trace, hlen]

set_option maxRecDepth 4000 in
/-- C10 counterexample: `write` invoked with a caller-supplied session
(`is_sub=True`) and `do_commit=False` on a 10,001-record append batch takes
the chunked path, which commits each chunk on the caller's session and then
closes that session — transaction control does not stay with the caller. -/
theorem chunked_write_closes_session_counterexample :
    (write_trace (List.replicate 10001 (() : Unit)) WMode.append true false false
        ⟨0, false⟩).closed = true ∧
    (write_trace (List.replicate 10001 (() : Unit)) WMode.append true false false
        ⟨0, false⟩).commits = 2 := by
  have hlen : (List.replicate 10001 (() : Unit)).length = 10001 :=
    List.length_replicate ..
  have hgt : 10000 < (List.replicate 10001 (() : Unit)).length := by
    rw [hlen]
    norm_num
  have h := write_trace_chunked (List.replicate 10001 (() : Unit)) hgt
    WMode.append (by decide) true false false ⟨0, false⟩
  rw [h]
  refine ⟨rfl, ?_⟩
  simp only [write_in_chunks_length_10001]

/-- C10 amended: a write or upsert invoked with a caller-supplied session
and `do_commit=False` neither commits nor closes that session —
`__finalize_transaction` is a no-op when `is_sub` holds and `do_commit` is
false — provided the batch does not exceed the 10,000-record chunking
threshold and the upsert decision does not take the merge path.  Two paths
break the property even below the threshold or at it: the merge path
commits the caller's open transaction exactly once — the raw `BEGIN; LOCK
TABLE ...; CREATE TABLE ... (LIKE ...); COMMIT;` batch that
`create_staging_table` executes on that session — though it does not close
the session; and the chunked append path (batch over 10,000 records)
commits once per chunk and closes the session. -/
theorem session_control_amended (α : Type) (data : List α) (mode : WMode)
    (mergePath : Bool) (t : SessTrace) (h : data.length ≤ 10000) :
    (mergePath = false ∨ mode ≠ WMode.upsert →
      write_trace data mode true false mergePath t = t) ∧
    upsert_trace data true false false t = t ∧
    (data ≠ [] → upsert_trace data true false true t
        = { t with commits := t.commits + 1 }) ∧
    finalize_transaction t true false = t := by
  have hplain : write_plain_trace data true false t = t := by
    have hng : ¬(data.length > 10000) := by omega
    simp [write_plain_trace, hng, finalize_noop]
  have hupF : upsert_trace data true false false t = t := by
    by_cases he : data.isEmpty
    · simp [upsert_trace, he]
    · simp [upsert_trace, he, finalize_noop, hplain]
  have hupT : data ≠ [] → upsert_trace data true false true t
      = { t with commits := t.commits + 1 } := by
    intro hne
    have hE : data.isEmpty = false := by
      cases data with
      | nil => exact absurd rfl hne
      | cons a l => rfl
    simp [upsert_trace, hE, finalize_noop]
  refine ⟨?_, hupF, hupT, finalize_noop t⟩
  intro hcase
  by_cases he : data.isEmpty
  · simp [write_trace, he]
  · by_cases hm : mode = WMode.upsert
    · have hmp : mergePath = false := by
        rcases hcase with hc | hc
        · exact hc
        · exact absurd hm hc
      subst hmp
      simp [write_trace, he, hm, hupF]
    · simp [write_trace, he, hm, hplain]

theorem session_control_amended_witness :
    write_trace [(0 : Nat)] WMode.append true false false ⟨0, false⟩ = ⟨0, false⟩ ∧
    upsert_trace [(0 : Nat)] true false true ⟨0, false⟩ = ⟨1, false⟩ :=
  ⟨(session_control_amended Nat [0] WMode.append false ⟨0, false⟩ (by decide)).1
      (Or.inl rfl),
   (session_control_amended Nat [0] WMode.append false ⟨0, false⟩
      (by decide)).2.2.1 (by decide)⟩

/-! ## Merge-column resolution (`SQLAlchemyConnector.get_merge_columns`) -/

/-- Catalog metadata of one table as sqlalchemy reflects it: the column
names, the columns generated `ALWAYS AS IDENTITY`, the columns with any
identity (`get_id_columns`: `col.identity is not None`), the primary-key
constraint columns, and the unique-constraint column lists in
`table.constraints` order. -/
structure TableMeta where
  columns : List String
  identityAlways : List String
  identityCols : List String
  pkey : Option (List String)
  uniques : List (List String)
  deriving DecidableEq

/-- Widest group of `get_merge_columns`: the constraints whose width equals
`max(unique_const_cts)` (maximum of the lengths). -/
def widestOf (u : List (List String)) : List (List String) :=
  u.filter (fun c => c.length == (u.map List.length).foldl max 0)

/-- Widest constraints that touch no identity column
(`[const for const in unique_const_cts[max_cols] if not any(c in id_columns
for c in const)]`). -/
def widestNonId (meta : TableMeta) (u : List (List String)) : List (List String) :=
  (widestOf u).filter (fun c => !c.any (· ∈ meta.identityCols))

/-- Tail of `get_merge_columns` when the primary key is unusable:
`max(unique_const_cts)` raises `ValueError` on an empty dict (modelled by
`.error`); otherwise the widest surviving constraint is picked, with ties
broken by `random.choice` (abstracted by `choice`); when the identity filter
empties the widest group the source falls back to the empty list
(`chosen = random.choice(unique_cols) if len(unique_cols) > 0 else
unique_cols`). -/
def mergeFromUniques (choice : List (List String) → List String)
    (meta : TableMeta) (u : List (List String)) : Except Unit (List String) :=
  if u.isEmpty then .error ()
  else .ok (if (widestNonId meta u).length > 0 then choice (widestNonId meta u) else [])

/-- Filter of `get_merge_columns` dropping constraints containing an
identity-always column when `ignore_identity` is set. -/
def identityAlwaysFilter (meta : TableMeta) (ig : Bool) : List (List String) :=
  if ig then meta.uniques.filter (fun c => !c.any (· ∈ meta.identityAlways))
  else meta.uniques

/-- Filter of `get_merge_columns` keeping constraints whose columns all
appear among the keys of `data[0]`, applied only when data was passed. -/
def presentFilter (dataHead : Option (List String)) (u : List (List String)) :
    List (List String) :=
  match dataHead with
  | some keys => u.filter (fun c => c.all (· ∈ keys))
  | none => u

/-- Embedding of `SQLAlchemyConnector.get_merge_columns`: filter the unique
constraints, then prefer the primary key whenever it exists and has no
identity-always column — regardless of whether its columns appear in the
data — otherwise fall back to the widest surviving unique constraint. -/
def get_merge_columns (choice : List (List String) → List String)
    (meta : TableMeta) (dataHead : Option (List String))
    (ignoreIdentity : Bool) : Except Unit (List String) :=
  match meta.pkey with
  | some pk =>
      if !pk.any (· ∈ meta.identityAlways) then .ok pk
      else mergeFromUniques choice meta
        (presentFilter dataHead (identityAlwaysFilter meta ignoreIdentity))
  | none => mergeFromUniques choice meta
      (presentFilter dataHead (identityAlwaysFilter meta ignoreIdentity))

/-- Upsert-column resolution in `SQLAlchemyConnector.upsert` when
`upsert_cols is None`: `unique_cols = set(self.get_merge_columns(table_name))`
— note the call passes no data, so the presence-in-data filter of
`get_merge_columns` never applies. -/
def resolveUpsertCols (choice : List (List String) → List String)
    (meta : TableMeta) : Except Unit (List String) :=
  get_merge_columns choice meta none true

/-- Modelled from the spec: `cols` is a narrowest unique or primary-key
constraint of the table whose columns are all present in the incoming
record keys. -/
def isNarrowestPresentConstraint (meta : TableMeta) (dataKeys cols : List String) :
    Bool :=
  let cands := (meta.pkey.toList ++ meta.uniques).filter (fun c => c.all (· ∈ dataKeys))
  cands.contains cols && cands.all (fun c => cols.length ≤ c.length)

/-- Deterministic stand-in for `random.choice` used at concrete inputs. -/
def chooseFirst (l : List (List String)) : List String :=
  l.headD []

theorem chooseFirst_mem : ∀ l : List (List String), l ≠ [] → chooseFirst l ∈ l := by
  intro l hl
  cases l with
  | nil => exact absurd rfl hl
  | cons a rest => exact List.mem_cons_self a rest

/-- C2 counterexample: a table with no primary key, unique constraints `(a)`
and `(b, c)`, and all three columns present in the incoming records.  The
claim picks the narrowest fully-present constraint `[a]`; the code resolves
upsert columns through `get_merge_columns` with no data filter and picks the
widest group, returning `[b, c]` (the widest group is a singleton here, so
the random tie-break has no freedom). -/
theorem merge_columns_widest_counterexample :
    resolveUpsertCols chooseFirst ⟨["a", "b", "c"], [], [], none, [["a"], ["b", "c"]]⟩
      = .ok ["b", "c"] ∧
    isNarrowestPresentConstraint ⟨["a", "b", "c"], [], [], none, [["a"], ["b", "c"]]⟩
      ["a", "b", "c"] ["b", "c"] = false ∧
    isNarrowestPresentConstraint ⟨["a", "b", "c"], [], [], none, [["a"], ["b", "c"]]⟩
      ["a", "b", "c"] ["a"] = true := by
  refine ⟨?_, by decide, by decide⟩
  rfl

theorem foldl_max_le_init (l : List Nat) (a : Nat) : a ≤ l.foldl max a := by
  induction l generalizing a with
  | nil => exact le_refl a
  | cons b rest ih => exact le_trans (le_max_left a b) (ih (max a b))

theorem le_foldl_max (l : List Nat) (a x : Nat) (hx : x ∈ l) : x ≤ l.foldl max a := by
  induction l generalizing a with
  | nil => cases hx
  | cons b rest ih =>
    rcases List.mem_cons.mp hx with h | h
    · subst h
      exact le_trans (le_max_right a x) (foldl_max_le_init rest (max a x))
    · exact ih (max a b) h

/-- Characterization of the unique-constraint tail: on success the result is
either the empty fallback or a member of the widest group. -/
theorem mergeFromUniques_ok (choice : List (List String) → List String)
    (meta : TableMeta) (u : List (List String)) (cols : List String)
    (hchoice : ∀ l, l ≠ [] → choice l ∈ l)
    (h : mergeFromUniques choice meta u = .ok cols) :
    cols = [] ∨ (cols ∈ u ∧ ∀ d ∈ u, d.length ≤ cols.length) := by
  rw [mergeFromUniques] at h
  split at h
  · cases h
  · injection h with h2
    split at h2
    · right
      rename_i hpos
      have hmem : cols ∈ widestNonId meta u := by
        rw [← h2]
        apply hchoice
        intro hnil
        rw [hnil] at hpos
        simp at hpos
      have hmemw : cols ∈ widestOf u := List.mem_of_mem_filter hmem
      have hmemu : cols ∈ u := List.mem_of_mem_filter hmemw
      refine ⟨hmemu, ?_⟩
      intro d hd
      have hmemw2 : cols ∈ u.filter
          (fun c => c.length == (u.map List.length).foldl max 0) := hmemw
      have hlen : (cols.length == (u.map List.length).foldl max 0) = true :=
        (List.mem_filter.mp hmemw2).2
      have hcl : cols.length = (u.map List.length).foldl max 0 := by
        simpa using hlen
      have := le_foldl_max (u.map List.length) 0 d.length
        (List.mem_map_of_mem List.length hd)
      omega
    · exact Or.inl h2.symm

theorem get_merge_columns_pk (choice : List (List String) → List String)
    (meta : TableMeta) (dataHead : Option (List String)) (ig : Bool)
    (pk : List String) (hpk : meta.pkey = some pk)
    (hb : (!pk.any (· ∈ meta.identityAlways)) = true) :
    get_merge_columns choice meta dataHead ig = .ok pk := by
  unfold get_merge_columns
  rw [hpk]
  simp [hb]

theorem get_merge_columns_no_pk (choice : List (List String) → List String)
    (meta : TableMeta) (dataHead : Option (List String)) (ig : Bool)
    (hpk : meta.pkey = none) :
    get_merge_columns choice meta dataHead ig
      = mergeFromUniques choice meta
          (presentFilter dataHead (identityAlwaysFilter meta ig)) := by
  unfold get_merge_columns
  rw [hpk]

/-- C2 amended: when upsert columns are not supplied, `write(mode=Upsert)`
resolves them via `get_merge_columns` called without the incoming data (so
presence of the columns in the record set is never checked): the primary
key is returned whenever it exists and has no identity-always column;
otherwise the result is one of the *widest* unique constraints surviving
the identity filters (tie broken by `random.choice`), or the empty list
when the identity-column filter empties the widest group. -/
theorem merge_columns_resolution_amended
    (choice : List (List String) → List String)
    (meta : TableMeta)
    (hchoice : ∀ l, l ≠ [] → choice l ∈ l) :
    (∀ pk, meta.pkey = some pk → (∀ c ∈ pk, c ∉ meta.identityAlways) →
        resolveUpsertCols choice meta = .ok pk) ∧
    (meta.pkey = none →
      ∀ cols, resolveUpsertCols choice meta = .ok cols →
        cols = [] ∨
          (cols ∈ meta.uniques ∧
            ∀ d ∈ meta.uniques, (!d.any (· ∈ meta.identityAlways)) = true →
              d.length ≤ cols.length)) := by
  constructor
  · intro pk hpk hnoid
    have hb : (!pk.any (· ∈ meta.identityAlways)) = true := by
      simp only [Bool.not_eq_true', List.any_eq_false]
      intro c hc
      simpa using hnoid c hc
    exact get_merge_columns_pk choice meta none true pk hpk hb
  · intro hpk cols hres
    rw [resolveUpsertCols, get_merge_columns_no_pk choice meta none true hpk] at hres
    have hchar := mergeFromUniques_ok choice meta _ cols hchoice hres
    rcases hchar with h | ⟨hmem, hbound⟩
    · exact Or.inl h
    · right
      have hmem1 : cols ∈ identityAlwaysFilter meta true := hmem
      have hmemu : cols ∈ meta.uniques := by
        rw [identityAlwaysFilter, if_pos rfl] at hmem1
        exact List.mem_of_mem_filter hmem1
      refine ⟨hmemu, ?_⟩
      intro d hd hdfilter
      apply hbound
      show d ∈ presentFilter none (identityAlwaysFilter meta true)
      rw [presentFilter, identityAlwaysFilter, if_pos rfl]
      exact List.mem_filter.mpr ⟨hd, hdfilter⟩

theorem merge_columns_resolution_amended_witness :
    resolveUpsertCols chooseFirst ⟨["id", "v"], [], [], some ["id"], []⟩
      = .ok ["id"] :=
  (merge_columns_resolution_amended chooseFirst
      ⟨["id", "v"], [], [], some ["id"], []⟩ chooseFirst_mem).1
    ["id"] rfl (by decide)

/-! ## Merge guard (`is_unique_constraint` and the upsert merge branch) -/

/-- Embedding of `SQLAlchemyConnector.is_unique_constraint`: the column
names of ALL unique and primary-key constraints are collected into one flat
list and `cols` is tested to be a subset of that union — not to coincide
with any single constraint. -/
def is_unique_constraint (meta : TableMeta) (cols : List String) : Bool :=
  cols.all (· ∈ (meta.uniques ++ meta.pkey.toList).flatten)

/-- Modelled from the spec: `cols` has the same column set as an actual
unique or primary-key constraint of the table. -/
def isActualConstraint (meta : TableMeta) (cols : List String) : Bool :=
  (meta.pkey.toList ++ meta.uniques).any
    (fun c => c.all (· ∈ cols) && cols.all (· ∈ c))

/-- Outcomes of the merge branch of `upsert` (source order): resolution of
the merge columns (`get_merge_columns(table_name, data, ignore_identity=True)`,
whose `max()` raises a `ValueError` on a table without usable unique
constraints), the `is_unique_constraint` guard raising the configuration
`ValueError`, the `if not merge_cols: raise ValueError` guard at the head of
`merge_tables` — all raised before the MERGE query string is assembled —
and finally the MERGE execution itself. -/
inductive MergePathResult where
  | maxEmptyError
  | notUniqueError
  | noMergeColsError
  | mergeExecuted (mergeCols : List String)
  deriving DecidableEq

/-- Guard sequence applied to the resolved merge columns. -/
def mergeGuardStep (meta : TableMeta) (res : Except Unit (List String)) :
    MergePathResult :=
  match res with
  | .error _ => .maxEmptyError
  | .ok mergeCols =>
      if !is_unique_constraint meta mergeCols then .notUniqueError
      else if mergeCols.isEmpty then .noMergeColsError
      else .mergeExecuted mergeCols

/-- Embedding of the merge branch of `SQLAlchemyConnector.upsert` composed
with `merge_data`/`merge_tables` up to the point where the MERGE statement
is built. -/
def upsertMergePath (choice : List (List String) → List String)
    (meta : TableMeta) (dataHead : Option (List String)) : MergePathResult :=
  mergeGuardStep meta (get_merge_columns choice meta dataHead true)

theorem mergeGuardStep_executed (meta : TableMeta)
    (res : Except Unit (List String)) (cols : List String)
    (h : mergeGuardStep meta res = .mergeExecuted cols) :
    res = .ok cols ∧ cols ≠ [] := by
  cases res with
  | error e => exact absurd h (by simp [mergeGuardStep])
  | ok mc =>
      simp only [mergeGuardStep] at h
      split at h
      · cases h
      · split at h
        · cases h
        · rename_i hni hne
          cases h
          refine ⟨rfl, ?_⟩
          intro hnil
          rw [hnil] at hne
          simp at hne

theorem get_merge_columns_ok_cases (choice : List (List String) → List String)
    (meta : TableMeta) (dataHead : Option (List String)) (ig : Bool)
    (hchoice : ∀ l, l ≠ [] → choice l ∈ l) (cols : List String)
    (hres : get_merge_columns choice meta dataHead ig = .ok cols) :
    cols = [] ∨ meta.pkey = some cols ∨ cols ∈ meta.uniques := by
  have hsub : ∀ c, c ∈ presentFilter dataHead (identityAlwaysFilter meta ig) →
      c ∈ meta.uniques := by
    intro c hc
    have hc1 : c ∈ identityAlwaysFilter meta ig := by
      cases dataHead with
      | none => exact hc
      | some keys => exact List.mem_of_mem_filter hc
    rw [identityAlwaysFilter] at hc1
    split at hc1
    · exact List.mem_of_mem_filter hc1
    · exact hc1
  have hfromU : mergeFromUniques choice meta
        (presentFilter dataHead (identityAlwaysFilter meta ig)) = .ok cols →
      cols = [] ∨ meta.pkey = some cols ∨ cols ∈ meta.uniques := by
    intro hcase
    rcases mergeFromUniques_ok choice meta _ cols hchoice hcase with h | ⟨hmem, _⟩
    · exact Or.inl h
    · exact Or.inr (Or.inr (hsub cols hmem))
  cases hpk : meta.pkey with
  | some pk =>
      by_cases hb : (!pk.any (· ∈ meta.identityAlways)) = true
      · rw [get_merge_columns_pk choice meta dataHead ig pk hpk hb] at hres
        injection hres with h
        exact Or.inr (Or.inl (by rw [h]))
      · have hb2 : (!pk.any (· ∈ meta.identityAlways)) = false :=
          eq_false_of_ne_true hb
        unfold get_merge_columns at hres
        rw [hpk] at hres
        simp only [hb2, Bool.false_eq_true, if_false] at hres
        rw [hpk] at hfromU
        exact hfromU hres
  | none =>
      rw [get_merge_columns_no_pk choice meta dataHead ig hpk] at hres
      rw [hpk] at hfromU
      exact hfromU hres

/-- C3: whenever the upsert decision algorithm switches to the Merge
strategy, a MERGE statement is only ever built and executed with merge
columns that are backed by an actual unique or primary-key constraint of
the target table; every other resolution fails with a `ValueError` before
the MERGE query string is assembled — either `max()` inside
`get_merge_columns`, the `is_unique_constraint` configuration guard in
`upsert`, or — for the empty resolution, which slips through that
subset-based guard — the `if not merge_cols: raise` guard at the head of
`merge_tables`. -/
theorem upsert_merge_guard (choice : List (List String) → List String)
    (meta : TableMeta) (dataHead : Option (List String))
    (hchoice : ∀ l, l ≠ [] → choice l ∈ l) :
    ∀ cols, upsertMergePath choice meta dataHead = .mergeExecuted cols →
      isActualConstraint meta cols = true := by
  intro cols hrun
  rw [upsertMergePath] at hrun
  rcases mergeGuardStep_executed meta _ cols hrun with ⟨hok, hne⟩
  rcases get_merge_columns_ok_cases choice meta dataHead true hchoice cols hok
    with h | h | h
  · exact absurd h hne
  · rw [isActualConstraint]
    apply List.any_eq_true.mpr
    refine ⟨cols, ?_, ?_⟩
    · apply List.mem_append_left
      simp [h]
    · simp [List.all_eq_true]
  · rw [isActualConstraint]
    apply List.any_eq_true.mpr
    refine ⟨cols, ?_, ?_⟩
    · exact List.mem_append_right _ h
    · simp [List.all_eq_true]

theorem upsert_merge_guard_witness :
    isActualConstraint ⟨["id", "v"], [], [], some ["id"], []⟩ ["id"] = true :=
  upsert_merge_guard chooseFirst ⟨["id", "v"], [], [], some ["id"], []⟩
    (some ["id", "v"]) chooseFirst_mem ["id"] rfl

/-! ## Reachability traversal (`SQLAlchemyConnector.tables_are_linked_by`) -/

/-- Python value usable as a dict key in the relationship maps: the inner
dict keys produced by `setup_fkey_relationships` are tuples of column names
(`pyT`), while the annotated type of `parent_column` is `str` (`pyS`).
Equality mirrors Python `==`: a str never equals a tuple. -/
inductive PyKey where
  | pyS (s : String)
  | pyT (t : List String)
  deriving DecidableEq

/-- One entry of `get_foreign_keys(parent_table)`: a child table name paired
with the keys of its inner dict (the ordered parent-key tuples).  The inner
dict values (the foreign-key tuple lists) are never used by
`tables_are_linked_by`: both `parent_column in child_tables[child_table]`
and `for fkey in fkeys` operate on the keys. -/
abbrev ChildMap := List (String × List PyKey)

/-- Python `set.add` on the shared `checked` set (membership is all the
traversal uses). -/
def insertName (x : String) (l : List String) : List String :=
  if x ∈ l then l else l ++ [x]

/-- Inner loop `for fkey in fkeys: if self.tables_are_linked_by(...): return
True` of `tables_are_linked_by`: one recursive call per key of the inner
dict, with the mutated `checked` set threaded through; exhausting the keys
falls through to the next child (falsy). -/
def linkedFkLoop (rec : String → List String → Option (Bool × List String))
    (sub : String) : List PyKey → List String → Option (Bool × List String)
  | [], checked => some (false, checked)
  | _ :: rest, checked =>
      match rec sub checked with
      | none => none
      | some (true, c1) => some (true, c1)
      | some (false, c1) => linkedFkLoop rec sub rest c1

/-- Outer loop `for sub_child, fkeys in child_tables.items()` of
`tables_are_linked_by`, skipping children already in `checked`; falling off
the end models the implicit `return None` (falsy, mapped to `false`). -/
def linkedChildLoop (rec : String → List String → Option (Bool × List String)) :
    ChildMap → List String → Option (Bool × List String)
  | [], checked => some (false, checked)
  | (sub, fkeys) :: rest, checked =>
      if sub ∈ checked then linkedChildLoop rec rest checked
      else
        match linkedFkLoop rec sub fkeys checked with
        | none => none
        | some (true, c1) => some (true, c1)
        | some (false, c1) => linkedChildLoop rec rest c1

/-- Body of `tables_are_linked_by` for a fixed parent table: `child_tables =
self.get_foreign_keys(parent_table)` is the same `children` map in every
recursive call (the source always recurses with the original
`parent_table`).  `fuel` counts Python call frames; `none` models
non-termination within the given frames. -/
def linkedAux (children : ChildMap) (col : PyKey) :
    Nat → String → List String → Option (Bool × List String)
  | 0, _, _ => none
  | fuel + 1, childTable, checked =>
      match children.lookup childTable with
      | none => some (false, checked)
      | some fkeys =>
          if col ∈ fkeys then some (true, checked)
          else
            linkedChildLoop (linkedAux children col fuel) children
              (insertName childTable checked)

/-- Embedding of `SQLAlchemyConnector.tables_are_linked_by`.  When the
parent table has no entry in `self.relationships`, `get_foreign_keys`
returns `None` and the membership test `child_table not in child_tables`
raises a `TypeError` (modelled by `.error ()`); otherwise the traversal
result is returned, with the falsy Python returns (`False` and the implicit
`None`) both mapped to `false`. -/
def tables_are_linked_by (relationships : List (String × ChildMap))
    (parentTable childTable : String) (col : PyKey) (checked : List String)
    (fuel : Nat) : Option (Except Unit Bool) :=
  match relationships.lookup parentTable with
  | none => some (.error ())
  | some children =>
      match linkedAux children col fuel childTable checked with
      | none => none
      | some (b, _) => some (.ok b)

/-- Unvisited children count: the termination measure of the traversal. -/
def unvis (children : ChildMap) (s : List String) : Nat :=
  ((children.map Prod.fst).filter (fun n => decide (n ∉ s))).length

theorem mem_insertName (x y : String) (l : List String) :
    x ∈ insertName y l ↔ x ∈ l ∨ x = y := by
  rw [insertName]
  split
  · rename_i hy
    constructor
    · exact Or.inl
    · intro h
      rcases h with h | h
      · exact h
      · rw [h]; exact hy
  · simp [List.mem_append]

theorem filter_length_mono (l : List α) (p q : α → Bool)
    (h : ∀ x, p x = true → q x = true) :
    (l.filter p).length ≤ (l.filter q).length := by
  induction l with
  | nil => exact le_refl _
  | cons a rest ih =>
    by_cases hp : p a = true
    · simp [hp, h a hp]
      omega
    · have hp2 : p a = false := eq_false_of_ne_true hp
      by_cases hq : q a = true
      · simp [hp2, hq]
        omega
      · simp [hp2, eq_false_of_ne_true hq]
        exact ih

theorem filter_length_strict (l : List α) (p q : α → Bool) (a : α)
    (h : ∀ x, p x = true → q x = true) (ha : a ∈ l)
    (hpa : p a = false) (hqa : q a = true) :
    (l.filter p).length < (l.filter q).length := by
  induction l with
  | nil => cases ha
  | cons b rest ih =>
    rcases List.mem_cons.mp ha with hb | hb
    · subst hb
      simp [hpa, hqa]
      calc (rest.filter p).length ≤ (rest.filter q).length :=
            filter_length_mono rest p q h
        _ < (rest.filter q).length + 1 := Nat.lt_succ_self _
    · by_cases hpb : p b = true
      · simp [hpb, h b hpb]
        exact ih hb
      · have hp2 : p b = false := eq_false_of_ne_true hpb
        by_cases hqb : q b = true
        · simp [hp2, hqb]
          calc (rest.filter p).length ≤ (rest.filter q).length :=
                filter_length_mono rest p q h
            _ < (rest.filter q).length + 1 := Nat.lt_succ_self _
        · simp [hp2, eq_false_of_ne_true hqb]
          exact ih hb

theorem unvis_antitone (children : ChildMap) (s t : List String)
    (h : ∀ x ∈ s, x ∈ t) : unvis children t ≤ unvis children s := by
  apply filter_length_mono
  intro x hx
  simp only [decide_eq_true_eq] at hx ⊢
  intro hxs
  exact hx (h x hxs)

theorem unvis_insert_lt (children : ChildMap) (s : List String) (sub : String)
    (hmem : sub ∈ children.map Prod.fst) (hns : sub ∉ s) :
    unvis children (insertName sub s) < unvis children s := by
  apply filter_length_strict _ _ _ sub
  · intro x hx
    simp only [decide_eq_true_eq] at hx ⊢
    intro hxs
    exact hx ((mem_insertName x sub s).mpr (Or.inl hxs))
  · exact hmem
  · simp [mem_insertName]
  · simp [hns]

theorem lookup_mem_keys (l : List (α × β)) [DecidableEq α] (k : α)
    (h : k ∈ l.map Prod.fst) : ∃ v, l.lookup k = some v := by
  induction l with
  | nil => cases h
  | cons e rest ih =>
    obtain ⟨a, b⟩ := e
    by_cases hk : k = a
    · exact ⟨b, by simp [List.lookup, hk]⟩
    · have hmem : k ∈ rest.map Prod.fst := by
        simp only [List.map_cons, List.mem_cons] at h
        rcases h with h1 | h1
        · exact absurd h1 hk
        · exact h1
      rcases ih hmem with ⟨v, hv⟩
      have hbeq : (k == a) = false := by
        simp [hk]
      exact ⟨v, by simp [List.lookup, hbeq, hv]⟩

theorem lookup_mem (l : List (α × β)) [DecidableEq α] (k : α) (v : β)
    (h : l.lookup k = some v) : (k, v) ∈ l := by
  induction l with
  | nil => cases h
  | cons e rest ih =>
    obtain ⟨a, b⟩ := e
    by_cases hk : k = a
    · subst hk
      simp [List.lookup] at h
      rw [h]
      exact List.mem_cons_self _ _
    · have hbeq : (k == a) = false := by simp [hk]
      simp [List.lookup, hbeq] at h
      exact List.mem_cons_of_mem _ (ih h)

theorem insertName_mem_self (y : String) (l : List String) : y ∈ insertName y l := by
  rw [mem_insertName]
  exact Or.inr rfl

theorem insertName_subset (y : String) (l : List String) :
    ∀ x ∈ l, x ∈ insertName y l :=
  fun x hx => (mem_insertName x y l).mpr (Or.inl hx)

/-- Totality of the traversal: with more fuel than the number of unvisited
children (plus the current frame), `linkedAux` returns a result, and the
shared `checked` set only ever grows. -/
theorem linkedAux_total (children : ChildMap) (col : PyKey) :
    ∀ k : Nat, ∀ ct checked fuel,
      unvis children (insertName ct checked) ≤ k → k < fuel →
      ∃ b c', linkedAux children col fuel ct checked = some (b, c')
        ∧ (∀ x ∈ checked, x ∈ c')
        ∧ (b = false → ct ∈ children.map Prod.fst →
            ∀ x ∈ insertName ct checked, x ∈ c') := by
  intro k
  induction k using Nat.strong_induction_on with
  | _ k SIH =>
    intro ct checked fuel hμ hfuel
    obtain ⟨f, rfl⟩ : ∃ f, fuel = f + 1 := ⟨fuel - 1, by omega⟩
    have hkf : k ≤ f := by omega
    cases hlk : children.lookup ct with
    | none =>
        refine ⟨false, checked, ?_, fun x hx => hx, ?_⟩
        · simp only [linkedAux, hlk]
        · intro _ hctmem
          rcases lookup_mem_keys children ct hctmem with ⟨v, hv⟩
          rw [hv] at hlk
          cases hlk
    | some fkeys =>
        by_cases hcol : col ∈ fkeys
        · refine ⟨true, checked, ?_, fun x hx => hx, ?_⟩
          · simp only [linkedAux, hlk, if_pos hcol]
          · intro hb
            cases hb
        · -- the visited set grows by ct, then the loop over all children runs
          have hloop : ∀ rest : ChildMap, (∀ e ∈ rest, e ∈ children) →
              ∀ cur, (∀ x ∈ insertName ct checked, x ∈ cur) →
              ∃ b c', linkedChildLoop (linkedAux children col f) rest cur
                  = some (b, c') ∧ (∀ x ∈ cur, x ∈ c') := by
            intro rest
            induction rest with
            | nil =>
                intro _ cur hcur
                exact ⟨false, cur, rfl, fun x hx => hx⟩
            | cons e rest2 ih =>
                intro hsub cur hcur
                obtain ⟨sub, fkl0⟩ := e
                by_cases hin : sub ∈ cur
                · have hrest := ih (fun e he => hsub e (List.mem_cons_of_mem _ he))
                    cur hcur
                  rcases hrest with ⟨b, c', heq, hmono⟩
                  exact ⟨b, c', by simp only [linkedChildLoop, if_pos hin]; exact heq,
                    hmono⟩
                · have hsubmem : sub ∈ children.map Prod.fst :=
                    List.mem_map.mpr ⟨(sub, fkl0), hsub _ (List.mem_cons_self _ _), rfl⟩
                  have hfk : ∀ fkl cur2, (∀ x ∈ cur, x ∈ cur2) →
                      (sub ∈ cur2 ∨ cur2 = cur) →
                      ∃ b c2, linkedFkLoop (linkedAux children col f) sub fkl cur2
                          = some (b, c2) ∧ (∀ x ∈ cur2, x ∈ c2) ∧
                          (b = false → fkl = [] ∨ sub ∈ c2) := by
                    intro fkl
                    induction fkl with
                    | nil =>
                        intro cur2 hc2 _
                        exact ⟨false, cur2, rfl, fun x hx => hx, fun _ => Or.inl rfl⟩
                    | cons fk fkrest ihf =>
                        intro cur2 hc2 hd
                        have hcur2 : ∀ x ∈ insertName ct checked, x ∈ cur2 :=
                          fun x hx => hc2 x (hcur x hx)
                        have hcurk : unvis children cur ≤ k :=
                          le_trans (unvis_antitone children _ cur hcur) hμ
                        have hj : unvis children (insertName sub cur2) < k := by
                          rcases hd with hd | hd
                          · -- sub already in cur2, which also includes insertName sub cur
                            have hsup : ∀ x ∈ insertName sub cur, x ∈ cur2 := by
                              intro x hx
                              rcases (mem_insertName x sub cur).mp hx with hx1 | hx1
                              · exact hc2 x hx1
                              · rw [hx1]; exact hd
                            have h1 : unvis children cur2
                                ≤ unvis children (insertName sub cur) :=
                              unvis_antitone children _ _ hsup
                            have h2 : unvis children (insertName sub cur)
                                < unvis children cur :=
                              unvis_insert_lt children cur sub hsubmem hin
                            have h3 : unvis children (insertName sub cur2)
                                ≤ unvis children cur2 := by
                              apply unvis_antitone
                              exact insertName_subset sub cur2
                            omega
                          · subst hd
                            have h2 : unvis children (insertName sub cur2)
                                < unvis children cur2 :=
                              unvis_insert_lt children cur2 sub hsubmem hin
                            omega
                        have hrec := SIH (unvis children (insertName sub cur2)) hj
                          sub cur2 f (le_refl _) (by omega)
                        rcases hrec with ⟨b1, c2, heq1, hmono1, hfalse1⟩
                        cases b1 with
                        | true =>
                            refine ⟨true, c2, ?_, hmono1, ?_⟩
                            · simp only [linkedFkLoop, heq1]
                            · intro hb; cases hb
                        | false =>
                            have hsubc2 : sub ∈ c2 := by
                              have := hfalse1 rfl hsubmem
                              exact this sub (insertName_mem_self sub cur2)
                            have hcont := ihf c2
                              (fun x hx => hmono1 x (hc2 x hx))
                              (Or.inl hsubc2)
                            rcases hcont with ⟨b', c3, heq', hmono', hfalse'⟩
                            refine ⟨b', c3, ?_, fun x hx => hmono' x (hmono1 x hx), ?_⟩
                            · simp only [linkedFkLoop, heq1]
                              exact heq'
                            · intro hb'
                              exact Or.inr (hmono' sub hsubc2)
                  have hfkres := hfk fkl0 cur (fun x hx => hx) (Or.inr rfl)
                  rcases hfkres with ⟨b1, c2, heqfk, hmonofk, _⟩
                  cases b1 with
                  | true =>
                      refine ⟨true, c2, ?_, hmonofk⟩
                      simp only [linkedChildLoop, if_neg hin, heqfk]
                  | false =>
                      have hrest := ih (fun e he => hsub e (List.mem_cons_of_mem _ he))
                        c2 (fun x hx => hmonofk x (hcur x hx))
                      rcases hrest with ⟨b', c3, heq', hmono'⟩
                      refine ⟨b', c3, ?_, fun x hx => hmono' x (hmonofk x hx)⟩
                      simp only [linkedChildLoop, if_neg hin, heqfk]
                      exact heq'
          have hres := hloop children (fun e he => he) (insertName ct checked)
            (fun x hx => hx)
          rcases hres with ⟨b, c', heq, hmono⟩
          refine ⟨b, c', ?_, ?_, ?_⟩
          · simp only [linkedAux, hlk, if_neg hcol]
            exact heq
          · intro x hx
            exact hmono x (insertName_subset ct checked x hx)
          · intro _ _ x hx
            exact hmono x hx

theorem linkedFkLoop_no_true
    (rec : String → List String → Option (Bool × List String)) (sub : String)
    (hrec : ∀ s c b c2, rec s c = some (b, c2) → b = false) :
    ∀ fkl checked b c', linkedFkLoop rec sub fkl checked = some (b, c') →
      b = false := by
  intro fkl
  induction fkl with
  | nil =>
      intro checked b c' h
      cases h
      rfl
  | cons fk rest ih =>
      intro checked b c' h
      simp only [linkedFkLoop] at h
      cases hr : rec sub checked with
      | none => rw [hr] at h; cases h
      | some bc =>
          obtain ⟨b1, c1⟩ := bc
          have hb1 : b1 = false := hrec _ _ _ _ hr
          subst hb1
          rw [hr] at h
          exact ih c1 b c' h

theorem linkedChildLoop_no_true
    (rec : String → List String → Option (Bool × List String))
    (hrec : ∀ s c b c2, rec s c = some (b, c2) → b = false) :
    ∀ rest checked b c', linkedChildLoop rec rest checked = some (b, c') →
      b = false := by
  intro rest
  induction rest with
  | nil =>
      intro checked b c' h
      cases h
      rfl
  | cons e rest2 ih =>
      intro checked b c' h
      obtain ⟨sub, fkl⟩ := e
      simp only [linkedChildLoop] at h
      by_cases hin : sub ∈ checked
      · rw [if_pos hin] at h
        exact ih checked b c' h
      · rw [if_neg hin] at h
        cases hr : linkedFkLoop rec sub fkl checked with
        | none => rw [hr] at h; cases h
        | some bc =>
            obtain ⟨b1, c1⟩ := bc
            have hb1 : b1 = false := linkedFkLoop_no_true rec sub hrec fkl checked b1 c1 hr
            subst hb1
            rw [hr] at h
            exact ih c1 b c' h

/-- When the parent column appears in no child key tuple, the traversal can
never return a truthy result. -/
theorem linkedAux_no_col (children : ChildMap) (col : PyKey)
    (hcol : ∀ e ∈ children, col ∉ e.2) :
    ∀ fuel ct checked b c',
      linkedAux children col fuel ct checked = some (b, c') → b = false := by
  intro fuel
  induction fuel with
  | zero =>
      intro ct checked b c' h
      cases h
  | succ f ihf =>
      intro ct checked b c' h
      simp only [linkedAux] at h
      cases hlk : children.lookup ct with
      | none =>
          rw [hlk] at h
          cases h
          rfl
      | some fkeys =>
          simp only [hlk] at h
          have hnotin : col ∉ fkeys :=
            hcol (ct, fkeys) (lookup_mem children ct fkeys hlk)
          rw [if_neg hnotin] at h
          exact linkedChildLoop_no_true _ (fun s c b2 c2 hr => ihf s c b2 c2 hr)
            children _ b c' h

/-- C9 amended: the recursive traversal `tables_are_linked_by` terminates on
every relationship graph — the shared visited set bounds the recursion depth
by the number of children of the (fixed) parent, so any fuel beyond that
count yields a result — and it returns a falsy value (`False`, or the
implicit `None` of the fall-through, both modelled as `false`) whenever the
parent table has an entry in the graph and the parent column appears in no
child key tuple (in particular the child is not reachable through that
column); when the parent table has no entry at all, `get_foreign_keys`
returns `None` and the traversal raises a `TypeError` instead of returning
false. -/
theorem tables_are_linked_by_termination
    (rel : List (String × ChildMap)) (parentTable childTable : String)
    (col : PyKey) (checked : List String) (fuel : Nat)
    (hfuel : ∀ children, rel.lookup parentTable = some children →
        children.length < fuel) :
    tables_are_linked_by rel parentTable childTable col checked fuel ≠ none ∧
    (∀ children, rel.lookup parentTable = some children →
      (∀ e ∈ children, col ∉ e.2) →
      tables_are_linked_by rel parentTable childTable col checked fuel
        = some (.ok false)) := by
  have hkey : ∀ children : ChildMap,
      unvis children (insertName childTable checked) ≤ children.length := by
    intro children
    calc unvis children (insertName childTable checked)
        ≤ (children.map Prod.fst).length := List.length_filter_le _ _
      _ = children.length := List.length_map _ _
  constructor
  · cases hlk : rel.lookup parentTable with
    | none => simp [tables_are_linked_by, hlk]
    | some children =>
        rcases linkedAux_total children col children.length childTable checked
            fuel (hkey children) (hfuel children hlk) with ⟨b, c', heq, _, _⟩
        simp [tables_are_linked_by, hlk, heq]
  · intro children hlk hcol
    rcases linkedAux_total children col children.length childTable checked
        fuel (hkey children) (hfuel children hlk) with ⟨b, c', heq, _, _⟩
    have hb : b = false := linkedAux_no_col children col hcol fuel childTable
      checked b c' heq
    subst hb
    simp [tables_are_linked_by, hlk, heq]

/-- C9 counterexample: on a graph where the parent table has no outgoing
relationships at all (so the child is certainly not reachable),
`get_foreign_keys` returns `None` and `child_table not in child_tables`
raises a `TypeError` — the call does not return false. -/
theorem linked_by_missing_parent_counterexample :
    tables_are_linked_by [] "p" "c" (.pyS "code") [] 1 = some (.error ()) ∧
    tables_are_linked_by [] "p" "c" (.pyS "code") [] 1 ≠ some (.ok false) := by
  constructor
  · rfl
  · intro h
    have h2 : (Except.error () : Except Unit Bool) = .ok false := by
      have h1 : (some (Except.error ()) : Option (Except Unit Bool))
          = some (.ok false) := h
      injection h1
    cases h2

theorem tables_are_linked_by_termination_witness :
    tables_are_linked_by
        [("a", [("a", [PyKey.pyT ["x"]]), ("b", [PyKey.pyT ["y"]])])]
        "a" "b" (.pyS "code") [] 3 = some (.ok false) :=
  (tables_are_linked_by_termination
      [("a", [("a", [PyKey.pyT ["x"]]), ("b", [PyKey.pyT ["y"]])])]
      "a" "b" (.pyS "code") [] 3
      (by intro children hc; cases hc; decide)).2
    [("a", [PyKey.pyT ["x"]]), ("b", [PyKey.pyT ["y"]])] rfl (by decide)

/-! ## Upsert decision and MERGE semantics (`SQLAlchemyConnector.upsert`,
`__downstream_data_exists_for_cols`, `merge_data`, `merge_tables`) -/

/-- SQL value: `none` models NULL. -/
abbrev Val := Option String

/-- Table row as an association list column → value. -/
abbrev Row := List (String × Val)

/-- Value of a column in a row: a missing column behaves as NULL. -/
def getVal (r : Row) (c : String) : Val :=
  (r.lookup c).join

/-- SQL `=`: never true when either side is NULL. -/
def sqlEq : Val → Val → Bool
  | some a, some b => a == b
  | _, _ => false

/-- SQL `IS NOT DISTINCT FROM`: null-safe equality. -/
def sqlNullSafeEq : Val → Val → Bool
  | some a, some b => a == b
  | none, none => true
  | _, _ => false

/-- SQL tuple-IN over wrapped literal tuples: a row tuple containing NULL
matches nothing. -/
def sqlTupleIn (pvals : List Val) (vals : List (List Val)) : Bool :=
  pvals.all Option.isSome && vals.contains pvals

/-- Lookup-key tuple of one record, as built in `upsert`: `for k in
upsert_cols: if k not in r: continue; upsert_val.append(r[k])` — missing
keys are skipped, present NULLs are kept. -/
def rowKeyTuple (cols : List String) (r : Row) : List Val :=
  cols.filterMap (fun c => r.lookup c)

/-- Distinct lookup-key tuples of the incoming records (`upsert_vals` is a
Python set; only membership matters downstream). -/
def upsertVals (cols : List String) (data : List Row) : List (List Val) :=
  data.foldl (fun acc r => setAdd (rowKeyTuple cols r) acc) []

/-- One child table of the target: its rows and its relationship entries
(ordered parent-key tuple → list of ordered child foreign-key tuples). -/
structure ChildTable where
  name : String
  rows : List Row
  rels : List (List String × List (List String))

/-- Database state around one upsert: the target table rows and the child
tables recorded in `self.relationships` for the target (`none` models a
target absent from the relationship map, so `has_dependent_tables` is
false). -/
structure DBState where
  parentRows : List Row
  children : Option (List ChildTable)

/-- Embedding of `SQLAlchemyConnector.__downstream_data_exists_for_cols`:
for each child table that has data and whose parent-key tuples overlap the
lookup columns, run the probe query joining target and child on each
(parent-key, foreign-key) pair, filtered to target rows whose lookup tuple
is among the incoming lookup values; true as soon as any probe returns a
row. -/
def downstream_exists (parentRows : List Row) (children : List ChildTable)
    (lookup : List String) (vals : List (List Val)) : Bool :=
  children.any (fun ct =>
    !ct.rows.isEmpty &&
    ct.rels.any (fun pr => pr.1.any (· ∈ lookup)) &&
    (ct.rels.filter (fun pr => pr.1.any (· ∈ lookup))).any (fun pr =>
      pr.2.any (fun fk =>
        parentRows.any (fun p =>
          ct.rows.any (fun c =>
            ((pr.1.zip fk).all (fun z => sqlEq (getVal p z.1) (getVal c z.2))) &&
            sqlTupleIn (lookup.map (getVal p)) vals)))))

/-- Columns of `get_table_columns(target, incl_identity=False)`: all table
columns except those generated always as identity; this is the column list
the MERGE inserts and updates. -/
def colNamesOf (meta : TableMeta) : List String :=
  meta.columns.filter (fun c => !(c ∈ meta.identityAlways))

/-- Embedding of `get_columns_with_null_records`: the columns among `cols`
for which some row holds NULL. -/
def nullColsOf (cols : List String) (rows : List Row) : List String :=
  cols.filter (fun c => rows.any (fun r => (getVal r c).isNone))

/-- Join predicate of the generated MERGE: `t.c = s.c` per merge column,
switched to `IS NOT DISTINCT FROM` for columns with observed NULLs in the
source or target. -/
def matchRow (mergeCols nullish : List String) (t s : Row) : Bool :=
  mergeCols.all (fun c =>
    if c ∈ nullish then sqlNullSafeEq (getVal t c) (getVal s c)
    else sqlEq (getVal t c) (getVal s c))

/-- Effect of the MERGE on one target row: `when matched then update set
c = s.c` for every non-key column of the insert column list, keeping all
other columns (in particular identity/key columns) in place; unmatched
target rows are untouched. -/
def mergeRow (mergeCols nullish updateCols : List String) (source : List Row)
    (t : Row) : Row :=
  match source.find? (fun s => matchRow mergeCols nullish t s) with
  | some s => t.map (fun cv => if cv.1 ∈ updateCols then (cv.1, getVal s cv.1) else cv)
  | none => t

/-- Null-affected columns consulted when building the MERGE join predicate:
the source staging table is probed on the insert column list, the target on
its full column list. -/
def mergeNullish (meta : TableMeta) (colNames : List String)
    (source target : List Row) : List String :=
  nullColsOf colNames source ++ nullColsOf meta.columns target

/-- Embedding of the MERGE statement built by `merge_tables`: every target
row is updated in place when a source row matches on the merge columns
(`when matched then update set` over the non-key columns), and source rows
matching no target row are inserted (`when not matched then insert`); no
target row is ever deleted and no statement touches any child table. -/
def mergeTables (meta : TableMeta) (colNames mergeCols : List String)
    (source target : List Row) : List Row :=
  let nullish := mergeNullish meta colNames source target
  let updateCols := colNames.filter (fun c => !(c ∈ mergeCols))
  target.map (mergeRow mergeCols nullish updateCols source)
    ++ (source.filter (fun s => !target.any (fun t => matchRow mergeCols nullish t s))).map
        (fun s => colNames.map (fun c => (c, getVal s c)))

/-- Staging-table source set fed to the MERGE: the incoming records loaded
into the staging table (record fields outside the table schema are
dropped by `write`), filtered by the lookup-value CTE of `merge_tables`
and projected onto the insert column list. -/
def mergeSource (meta : TableMeta) (lookup : List String)
    (vals : List (List Val)) (data : List Row) : List Row :=
  ((data.map (fun r => r.filter (fun cv => cv.1 ∈ meta.columns))).filter
      (fun s => sqlTupleIn (lookup.map (getVal s)) vals)).map
    (fun s => (colNamesOf meta).map (fun c => (c, getVal s c)))

/-- Observable outcome of `SQLAlchemyConnector.upsert`. -/
inductive UpsertResult where
  | noop
  | invalidColsError
  | resolutionError
  | configError
  | noMergeColsError
  | merged (db2 : DBState)
  | deletedInserted (db2 : DBState)

/-- Embedding of `SQLAlchemyConnector.upsert` for an explicit upsert-column
list or a `None` resolution: empty data is a logged no-op; lookup columns
absent from the target table raise `ValueError`; the merge path is taken
exactly when the target has dependent child tables and
`__downstream_data_exists_for_cols` finds a child row matching an incoming
lookup value; otherwise rows matching the lookup values are deleted and the
records appended. -/
def upsert (choice : List (List String) → List String) (meta : TableMeta)
    (db : DBState) (data : List Row) (upsertCols : Option (List String)) :
    UpsertResult :=
  if data.isEmpty then .noop
  else
    match (match upsertCols with
      | some l => Except.ok l
      | none => get_merge_columns choice meta none true : Except Unit (List String)) with
    | .error _ => .resolutionError
    | .ok lookup =>
        let vals := upsertVals lookup data
        if !(lookup.all (· ∈ meta.columns)) then .invalidColsError
        else
          match db.children with
          | some cs =>
              if downstream_exists db.parentRows cs lookup vals then
                match get_merge_columns choice meta
                    (data.head?.map (fun r => r.map Prod.fst)) true with
                | .error _ => .resolutionError
                | .ok mergeCols =>
                    if !is_unique_constraint meta mergeCols then .configError
                    else if mergeCols.isEmpty then .noMergeColsError
                    else
                      .merged ⟨mergeTables meta (colNamesOf meta) mergeCols
                          (mergeSource meta lookup vals data) db.parentRows,
                        db.children⟩
              else
                .deletedInserted
                  ⟨db.parentRows.filter
                      (fun p => !(sqlTupleIn (lookup.map (getVal p)) vals))
                    ++ data.map (fun r => r.filter (fun cv => cv.1 ∈ colNamesOf meta)),
                  db.children⟩
          | none =>
              .deletedInserted
                ⟨db.parentRows.filter
                    (fun p => !(sqlTupleIn (lookup.map (getVal p)) vals))
                  ++ data.map (fun r => r.filter (fun cv => cv.1 ∈ colNamesOf meta)),
                db.children⟩

theorem lookup_update (t : Row) (upd : List String) (s : Row) (c : String) :
    (t.map (fun cv => if cv.1 ∈ upd then (cv.1, getVal s cv.1) else cv)).lookup c
      = (t.lookup c).map (fun v => if c ∈ upd then getVal s c else v) := by
  induction t with
  | nil => rfl
  | cons cv rest ih =>
    obtain ⟨k, v⟩ := cv
    by_cases hk : c = k
    · subst hk
      simp only [List.map_cons]
      split
      · rename_i hupd
        simp [List.lookup, hupd]
      · rename_i hupd
        simp [List.lookup, hupd]
    · have hbeq : (c == k) = false := by simp [hk]
      simp only [List.map_cons]
      split
      · simp only [List.lookup, hbeq]
        exact ih
      · simp only [List.lookup, hbeq]
        exact ih

/-- Updated rows keep every column outside the update set. -/
theorem mergeRow_preserves (mergeCols nullish updateCols : List String)
    (source : List Row) (t : Row) (c : String) (hc : c ∉ updateCols) :
    getVal (mergeRow mergeCols nullish updateCols source t) c = getVal t c := by
  rw [mergeRow]
  cases hfind : source.find? (fun s => matchRow mergeCols nullish t s) with
  | none => rfl
  | some s =>
      show getVal (t.map fun cv => if cv.1 ∈ updateCols then (cv.1, getVal s cv.1) else cv) c
        = getVal t c
      rw [getVal, lookup_update]
      show ((t.lookup c).map fun v => if c ∈ updateCols then getVal s c else v).join
        = (t.lookup c).join
      cases t.lookup c with
      | none => rfl
      | some v => simp [hc]

/-- Matched rows take the matching source value on every update column they
carry. -/
theorem mergeRow_updates (mergeCols nullish updateCols : List String)
    (source : List Row) (t s : Row) (c : String) (v : Val)
    (hfind : source.find? (fun s2 => matchRow mergeCols nullish t s2) = some s)
    (hc : c ∈ updateCols) (hv : t.lookup c = some v) :
    getVal (mergeRow mergeCols nullish updateCols source t) c = getVal s c := by
  rw [mergeRow, hfind]
  show getVal (t.map fun cv => if cv.1 ∈ updateCols then (cv.1, getVal s cv.1) else cv) c
    = getVal s c
  rw [getVal, lookup_update, hv]
  simp [hc]

/-- The MERGE never deletes: the i-th target row is still the i-th result
row (updated in place), and the result only grows. -/
theorem mergeTables_no_delete (meta : TableMeta) (colNames mergeCols : List String)
    (source target : List Row) :
    target.length ≤ (mergeTables meta colNames mergeCols source target).length ∧
    ∀ i, (hi : i < target.length) →
      (mergeTables meta colNames mergeCols source target)[i]?
        = some (mergeRow mergeCols (mergeNullish meta colNames source target)
            (colNames.filter (fun c => !(c ∈ mergeCols))) source target[i]) := by
  constructor
  · rw [mergeTables]
    simp
  · intro i hi
    simp only [mergeTables]
    rw [List.getElem?_append, if_pos (by simpa using hi)]
    rw [List.getElem?_map]
    rw [List.getElem?_eq_getElem hi]
    rfl

/-- C1: whenever the upsert targets a table with dependent child tables and
`__downstream_data_exists_for_cols` finds child rows whose foreign-key
values match the incoming lookup-key values (the claim's premise, embedded
as the code's own check), `write(mode=Upsert)` takes the Merge path rather
than DeleteThenInsert: the result is the MERGE semantics, under which every
existing parent row survives at its position (never deleted), columns
outside the update set — in particular identity columns such as the id and
the merge-key columns — keep their values (id stability, update in place),
non-key fields of a matched row take the staging row's values, and the child
tables are untouched. -/
theorem upsert_merge_path_preserves_parent_and_children
    (choice : List (List String) → List String) (meta : TableMeta)
    (db : DBState) (data : List Row) (lookupCols mergeCols : List String)
    (cs : List ChildTable)
    (hne : data ≠ [])
    (hcols : lookupCols.all (· ∈ meta.columns) = true)
    (hcs : db.children = some cs)
    (hdown : downstream_exists db.parentRows cs lookupCols
        (upsertVals lookupCols data) = true)
    (hmc : get_merge_columns choice meta
        (data.head?.map (fun r => r.map Prod.fst)) true = .ok mergeCols)
    (hguard : is_unique_constraint meta mergeCols = true)
    (hnonempty : mergeCols ≠ []) :
    upsert choice meta db data (some lookupCols)
      = .merged ⟨mergeTables meta (colNamesOf meta) mergeCols
          (mergeSource meta lookupCols (upsertVals lookupCols data) data)
          db.parentRows, db.children⟩ ∧
    (∀ source target,
      target.length ≤ (mergeTables meta (colNamesOf meta) mergeCols source target).length ∧
      ∀ i, (hi : i < target.length) →
        (mergeTables meta (colNamesOf meta) mergeCols source target)[i]?
          = some (mergeRow mergeCols
              (mergeNullish meta (colNamesOf meta) source target)
              ((colNamesOf meta).filter (fun c => !(c ∈ mergeCols))) source
              target[i])) ∧
    (∀ nullish source t c, (c ∈ meta.identityAlways ∨ c ∈ mergeCols) →
      getVal (mergeRow mergeCols nullish
          ((colNamesOf meta).filter (fun c2 => !(c2 ∈ mergeCols))) source t) c
        = getVal t c) ∧
    (∀ nullish source t s c v,
      source.find? (fun s2 => matchRow mergeCols nullish t s2) = some s →
      c ∈ (colNamesOf meta).filter (fun c2 => !(c2 ∈ mergeCols)) →
      t.lookup c = some v →
      getVal (mergeRow mergeCols nullish
          ((colNamesOf meta).filter (fun c2 => !(c2 ∈ mergeCols))) source t) c
        = getVal s c) := by
  have hE : data.isEmpty = false := by
    cases data with
    | nil => exact absurd rfl hne
    | cons a l => rfl
  have hmE : mergeCols.isEmpty = false := by
    cases mergeCols with
    | nil => exact absurd rfl hnonempty
    | cons a l => rfl
  refine ⟨?_, ?_, ?_, ?_⟩
  · simp only [upsert, hE, Bool.false_eq_true, if_false, hcols, Bool.not_true,
      hcs, hdown, if_true, hmc, hguard, hmE]
  · intro source target
    exact mergeTables_no_delete meta (colNamesOf meta) mergeCols source target
  · intro nullish source t c hc
    apply mergeRow_preserves
    intro hmem
    rcases List.mem_filter.mp hmem with ⟨hcn, hnb⟩
    rcases hc with hc | hc
    · rcases List.mem_filter.mp hcn with ⟨_, hnid⟩
      simp [hc] at hnid
    · simp [hc] at hnb
  · intro nullish source t s c v hfind hc hv
    exact mergeRow_updates mergeCols nullish _ source t s c v hfind hc hv

theorem upsert_merge_path_witness :
    upsert chooseFirst
        ⟨["id", "code", "extra"], ["id"], ["id"], some ["id"], [["code"]]⟩
        ⟨[[("id", some "1"), ("code", some "A"), ("extra", some "v1")]],
          some [⟨"public.child",
            [[("id", some "10"), ("parent_code", some "A")]],
            [(["code"], [["parent_code"]])]⟩]⟩
        [[("code", some "A"), ("extra", some "v2")]]
        (some ["code"])
      = .merged
          ⟨[[("id", some "1"), ("code", some "A"), ("extra", some "v2")]],
            some [⟨"public.child",
              [[("id", some "10"), ("parent_code", some "A")]],
              [(["code"], [["parent_code"]])]⟩]⟩ := by
  have h := upsert_merge_path_preserves_parent_and_children chooseFirst
    ⟨["id", "code", "extra"], ["id"], ["id"], some ["id"], [["code"]]⟩
    ⟨[[("id", some "1"), ("code", some "A"), ("extra", some "v1")]],
      some [⟨"public.child",
        [[("id", some "10"), ("parent_code", some "A")]],
        [(["code"], [["parent_code"]])]⟩]⟩
    [[("code", some "A"), ("extra", some "v2")]]
    ["code"] ["code"]
    [⟨"public.child",
      [[("id", some "10"), ("parent_code", some "A")]],
      [(["code"], [["parent_code"]])]⟩]
    (by decide) (by decide) rfl (by decide) rfl (by decide) (by decide)
  rw [h.1]
  rfl
